import Mathlib

/-!
Tagged cache façade of `ddpmz/ghog-cache` (package `cache`)

A shallow embedding of `src/cache/cache.go`.

* `Val` stands for the Go values (`interface{}`) that travel through the cache.
* `Store` is the content of the backend (`gcache.Cache` with the in-memory adapter that
  `New` installs), observed at the instant an operation returns: no time elapses inside
  the model, so an entry written with a duration of zero or more is present right after
  the write, and one written with a negative duration is already expired, hence absent.
  The in-memory adapter returns a nil error from every call, so error results are not
  carried around: an operation of the model that returns has returned a nil error.
* `GfCache` is the façade struct; `tagSetMux` is the mutex as an explicit flag.  A call
  that reaches `Lock` while the flag is set never returns (the model is sequential, nobody
  else can release it); such a call evaluates to `none`.
* `Lib` collects the functions of the gf library (`gjson`, `gconv`) whose code is outside
  the repository.  Their behaviour on a native `[]interface{}` is fixed by the definitions
  `SliceAny` and `SliceStr`; everything else is a parameter.
-/

namespace GhogCache

/-! ## Values and the library functions -/

/-- Go values stored in the cache: a `string`, a native `[]interface{}`, or any other
non-nil payload (numbers, maps, structs), told apart by a number. -/
inductive Val where
  | str (s : String)
  | slice (xs : List Val)
  | other (n : Nat)

/-- Functions of the gf library used by the package, taken as parameters.
`DecodeToJson s` is `gjson.DecodeToJson(s)` followed by `js.Interface()`, with `none` for a
decode error; `Interfaces`, `Strings` and `Str` are `gconv.SliceAny`, `gconv.SliceStr` and
`gconv.String` on the values that are not covered by `SliceAny`, `SliceStr` below. -/
structure Lib where
  DecodeToJson : String → Option Val
  Interfaces : Val → List Val
  Strings : Val → List String
  Str : Val → String

/-- Conversion `gconv.String` of one element: a Go string is returned as it is. -/
def gconvString (lib : Lib) : Val → String
  | .str s => s
  | v => lib.Str v

/-- Conversion `gconv.SliceAny`: a `[]interface{}` is returned as it is. -/
def SliceAny (lib : Lib) : Val → List Val
  | .slice xs => xs
  | v => lib.Interfaces v

/-- Conversion `gconv.SliceStr`: a `[]interface{}` is converted element by element. -/
def SliceStr (lib : Lib) : Val → List String
  | .slice xs => xs.map (gconvString lib)
  | v => lib.Strings v

/-- Comparison `reflect.DeepEqual(key, v)` for a `key` of Go type `string`: true exactly
when `v` is a string with the same content. -/
def DeepEqual (key : String) : Val → Bool
  | .str s => decide (s = key)
  | _ => false

/-! ## The backend store -/

/-- Content of the backend store: the value held under each backend key, if any. -/
abbrev Store := String → Option Val

/-- Backend read `cache.Get(ctx, key)`: the stored value, `none` when absent. -/
def gcache.Get (s : Store) (key : String) : Option Val := s key

/-- Backend write `cache.Set(ctx, key, value, duration)`: the entry replaces what `key`
held; written with a negative duration it is expired from the start, so `key` is absent. -/
def gcache.Set (s : Store) (key : String) (value : Val) (duration : Int) : Store :=
  fun k => if k = key then (if duration < 0 then none else some value) else s k

/-- Backend `cache.SetIfNotExist`: writes only when `key` is absent and tells whether it
wrote. -/
def gcache.SetIfNotExist (s : Store) (key : String) (value : Val) (duration : Int) :
    Bool × Store :=
  match s key with
  | some _ => (false, s)
  | none => (true, gcache.Set s key value duration)

/-- Backend `cache.GetOrSet`: the stored value when present, else writes `value` and
returns it. -/
def gcache.GetOrSet (s : Store) (key : String) (value : Val) (duration : Int) :
    Val × Store :=
  match s key with
  | some v => (v, s)
  | none => (value, gcache.Set s key value duration)

/-- A `gcache.Func` callback, as the value it produces; `none` when it yields nil or
fails. -/
abbrev Func := Unit → Option Val

/-- Backend `cache.GetOrSetFunc`: the stored value when present, else the result of `f`,
written unless `f` yields nothing. -/
def gcache.GetOrSetFunc (s : Store) (key : String) (f : Func) (duration : Int) :
    Option Val × Store :=
  match s key with
  | some v => (some v, s)
  | none =>
    match f () with
    | none => (none, s)
    | some value => (some value, gcache.Set s key value duration)

/-- Backend `cache.GetOrSetFuncLock`: as `GetOrSetFunc`, with `f` run under the
backend's own write lock, which a sequential run cannot observe. -/
def gcache.GetOrSetFuncLock (s : Store) (key : String) (f : Func) (duration : Int) :
    Option Val × Store :=
  gcache.GetOrSetFunc s key f duration

/-- Value of the last of `keys` that is present in `s`, scanning from the left. -/
def gcache.lastValue (s : Store) : List String → Option Val → Option Val
  | [], acc => acc
  | k :: ks, acc =>
    match s k with
    | some v => gcache.lastValue (fun x => if x = k then none else s x) ks (some v)
    | none => gcache.lastValue s ks acc

/-- Backend `cache.Remove(ctx, keys...)`: deletes the keys and returns the value of the
last deleted item. -/
def gcache.Remove (s : Store) (keys : List String) : Option Val × Store :=
  (gcache.lastValue s keys none, fun k => if k ∈ keys then none else s k)

/-! ## The façade -/

/-- The struct `GfCache`: the namespace, the backend content and the state of the
mutex (`true` when held). -/
structure GfCache where
  CachePrefix : String
  cache : Store
  tagSetMux : Bool

/-- Constructor `New`: an empty in-memory backend and a free mutex. -/
def New (cachePrefix : String) : GfCache :=
  { CachePrefix := cachePrefix, cache := fun _ => none, tagSetMux := false }

/-- Call `c.tagSetMux.Lock()`: takes the mutex when it is free, never returns when it
is held. -/
def GfCache.Lock (c : GfCache) : Option GfCache :=
  if c.tagSetMux then none else some { c with tagSetMux := true }

/-- Call `c.tagSetMux.Unlock()`. -/
def GfCache.Unlock (c : GfCache) : GfCache :=
  { c with tagSetMux := false }

/-- Function `setTagKey`, lines 68-73. -/
def setTagKey (tag : String) : String :=
  if tag ≠ "" then "tag_" ++ tag else tag

/-- The slice `tagValue` built by `cacheTagKey` (lines 42 and 57-61): `key`, followed by
the elements of `keyValue` that are not deep-equal to `key`. -/
def tagValue (key : String) (keyValue : List Val) : List Val :=
  .str key :: keyValue.filter (fun v => !DeepEqual key v)

/-- Method `cacheTagKey`, lines 39-65. -/
def GfCache.cacheTagKey (c : GfCache) (lib : Lib) (key : String) (tag : String) : GfCache :=
  let tagKey := c.CachePrefix ++ setTagKey tag
  if tagKey ≠ "" then
    match gcache.Get c.cache tagKey with
    | none => { c with cache := gcache.Set c.cache tagKey (.slice (tagValue key [])) 0 }
    | some (.str keyStr) =>
      match lib.DecodeToJson keyStr with
      | none => c
      | some js =>
        { c with cache := gcache.Set c.cache tagKey (.slice (tagValue key (SliceAny lib js))) 0 }
    | some value =>
      { c with cache := gcache.Set c.cache tagKey (.slice (tagValue key (SliceAny lib value))) 0 }
  else c

/-- Method `Set`, lines 77-88; `tag` is the variadic argument. -/
def GfCache.Set (c : GfCache) (lib : Lib) (key : String) (value : Val) (duration : Int)
    (tag : List String) : Option GfCache :=
  match c.Lock with
  | none => none
  | some c =>
    let c := match tag with
      | [] => c
      | t :: _ => c.cacheTagKey lib key t
    let c := { c with cache := gcache.Set c.cache (c.CachePrefix ++ key) value duration }
    some c.Unlock

/-- Method `SetIfNotExist`, lines 92-97. -/
def GfCache.SetIfNotExist (c : GfCache) (lib : Lib) (key : String) (value : Val)
    (duration : Int) (tag : String) : Option (Bool × GfCache) :=
  match c.Lock with
  | none => none
  | some c =>
    let c := c.cacheTagKey lib key tag
    let r := gcache.SetIfNotExist c.cache (c.CachePrefix ++ key) value duration
    some (r.1, GfCache.Unlock { c with cache := r.2 })

/-- Method `Get`, lines 101-103. -/
def GfCache.Get (c : GfCache) (key : String) : Option Val :=
  gcache.Get c.cache (c.CachePrefix ++ key)

/-- Method `GetOrSet`, lines 110-115. -/
def GfCache.GetOrSet (c : GfCache) (lib : Lib) (key : String) (value : Val)
    (duration : Int) (tag : String) : Option (Val × GfCache) :=
  match c.Lock with
  | none => none
  | some c =>
    let c := c.cacheTagKey lib key tag
    let r := gcache.GetOrSet c.cache (c.CachePrefix ++ key) value duration
    some (r.1, GfCache.Unlock { c with cache := r.2 })

/-- Method `GetOrSetFunc`, lines 120-125. -/
def GfCache.GetOrSetFunc (c : GfCache) (lib : Lib) (key : String) (f : Func)
    (duration : Int) (tag : String) : Option (Option Val × GfCache) :=
  match c.Lock with
  | none => none
  | some c =>
    let c := c.cacheTagKey lib key tag
    let r := gcache.GetOrSetFunc c.cache (c.CachePrefix ++ key) f duration
    some (r.1, GfCache.Unlock { c with cache := r.2 })

/-- Method `GetOrSetFuncLock`, lines 132-137. -/
def GfCache.GetOrSetFuncLock (c : GfCache) (lib : Lib) (key : String) (f : Func)
    (duration : Int) (tag : String) : Option (Option Val × GfCache) :=
  match c.Lock with
  | none => none
  | some c =>
    let c := c.cacheTagKey lib key tag
    let r := gcache.GetOrSetFuncLock c.cache (c.CachePrefix ++ key) f duration
    some (r.1, GfCache.Unlock { c with cache := r.2 })

/-- Method `Remove`, lines 145-147: the prior value and the new state. -/
def GfCache.Remove (c : GfCache) (key : String) : Option Val × GfCache :=
  let r := gcache.Remove c.cache [c.CachePrefix ++ key]
  (r.1, { c with cache := r.2 })

/-- Method `Removes`, lines 150-156. -/
def GfCache.Removes (c : GfCache) (keys : List String) : GfCache :=
  let keysWithPrefix := keys.map (fun v => c.CachePrefix ++ v)
  { c with cache := (gcache.Remove c.cache keysWithPrefix).2 }

/-- Method `RemoveByTag`, lines 159-181.  On a decode error the method returns at line
170, before the `Unlock` of line 180. -/
def GfCache.RemoveByTag (c : GfCache) (lib : Lib) (tag : String) : Option GfCache :=
  match c.Lock with
  | none => none
  | some c =>
    let tagKey := setTagKey tag
    match c.Get tagKey with
    | none => some (c.Remove tagKey).2.Unlock
    | some (.str keyStr) =>
      match lib.DecodeToJson keyStr with
      | none => some c
      | some js =>
        let c := c.Removes (SliceStr lib js)
        some (c.Remove tagKey).2.Unlock
    | some keys =>
      let c := c.Removes (SliceStr lib keys)
      some (c.Remove tagKey).2.Unlock

/-- Method `RemoveByTags`, lines 184-188. -/
def GfCache.RemoveByTags (c : GfCache) (lib : Lib) : List String → Option GfCache
  | [] => some c
  | v :: rest =>
    match c.RemoveByTag lib v with
    | none => none
    | some c => GfCache.RemoveByTags c lib rest

/-! ## Notions used to state the properties -/

/-- The tag key of `t` as the specification writes it: `prefix + "tag_" + tagName`. -/
def tagKeyOf (c : GfCache) (t : String) : String :=
  c.CachePrefix ++ "tag_" ++ t

/-- The list held under the tag key of `t`: empty when the key is absent, the stored
slice when it holds a native list, the decoded slice when it holds a string that decodes
to a list; `none` when the stored value is no such thing. -/
def tagList (lib : Lib) (c : GfCache) (t : String) : Option (List Val) :=
  match c.cache (tagKeyOf c t) with
  | none => some []
  | some (.slice L) => some L
  | some (.str s) =>
    match lib.DecodeToJson s with
    | some (.slice L) => some L
    | _ => none
  | some (.other _) => none

/-- Whether the membership set of tag `t` contains `key`. -/
def hasMember (lib : Lib) (c : GfCache) (t : String) (key : String) : Bool :=
  match tagList lib c t with
  | some L => L.any (DeepEqual key)
  | none => false

/-- The façade `c` looking at the backend content `s`: façades over one shared backend
see each other's writes. -/
def GfCache.withStore (c : GfCache) (s : Store) : GfCache :=
  { c with cache := s }

/-! ## One concrete library

Statements at a concrete input need a concrete `Lib`.  The decoder below accepts exactly
the JSON arrays of escape-free strings written without blanks, such as `["a","b"]`, and
reports a decode error for every other text. -/

/-- Position of the scanner inside an array of strings. -/
inductive Phase where
  | item
  | inStr (cur : List Char)
  | afterStr

/-- Scanner for the characters after the opening bracket. -/
def scan : Phase → List String → List Char → Option (List String)
  | .item, acc, '"' :: cs => scan (.inStr []) acc cs
  | .inStr cur, acc, '"' :: cs => scan .afterStr (String.mk cur.reverse :: acc) cs
  | .inStr _, _, '\\' :: _ => none
  | .inStr cur, acc, ch :: cs =>
    if ch.toNat < 32 then none else scan (.inStr (ch :: cur)) acc cs
  | .afterStr, acc, ',' :: cs => scan .item acc cs
  | .afterStr, acc, [']'] => some acc.reverse
  | _, _, _ => none

/-- Decoder for JSON arrays of escape-free strings. -/
def decodeStrings (s : String) : Option Val :=
  match s.data with
  | ['[', ']'] => some (.slice [])
  | '[' :: cs => (scan .item [] cs).map (fun ks => .slice (ks.map .str))
  | _ => none

/-- A concrete library: the decoder above; a value that is not a slice converts to the
one-element slice holding it, and to the one-element string slice when it is a string. -/
def stringArrays : Lib :=
  { DecodeToJson := decodeStrings
    Interfaces := fun v => [v]
    Strings := fun v =>
      match v with
      | .str s => [s]
      | _ => []
    Str := fun _ => "" }

/-! ## Auxiliary facts -/

theorem append_left_cancel (p a b : String) : p ++ a = p ++ b ↔ a = b := by
  constructor
  · intro h
    have h2 := congrArg String.data h
    simp at h2
    exact String.ext h2
  · rintro rfl; rfl

theorem setTagKey_of_ne {t : String} (ht : t ≠ "") : setTagKey t = "tag_" ++ t := by
  simp [setTagKey, ht]

theorem prefix_setTagKey (c : GfCache) {t : String} (ht : t ≠ "") :
    c.CachePrefix ++ setTagKey t = tagKeyOf c t := by
  rw [setTagKey_of_ne ht, tagKeyOf, String.append_assoc]

theorem tagKeyOf_ne_empty (c : GfCache) (t : String) : tagKeyOf c t ≠ "" := by
  intro h
  have h2 := congrArg String.length h
  simp [tagKeyOf] at h2
  have h4 : "tag_".length = 4 := rfl
  omega

theorem key_ne_tagKeyOf (c : GfCache) {k t : String} (hk : k ≠ "tag_" ++ t) :
    c.CachePrefix ++ k ≠ tagKeyOf c t := by
  intro h
  rw [tagKeyOf, String.append_assoc, append_left_cancel] at h
  exact hk h

theorem cacheTagKey_CachePrefix (c : GfCache) (lib : Lib) (k t : String) :
    (c.cacheTagKey lib k t).CachePrefix = c.CachePrefix := by
  unfold GfCache.cacheTagKey
  simp only
  split
  · split
    · rfl
    · split <;> rfl
    · rfl
  · rfl

theorem cacheTagKey_tagSetMux (c : GfCache) (lib : Lib) (k t : String) :
    (c.cacheTagKey lib k t).tagSetMux = c.tagSetMux := by
  unfold GfCache.cacheTagKey
  simp only
  split
  · split
    · rfl
    · split <;> rfl
    · rfl
  · rfl

theorem cacheTagKey_frame (c : GfCache) (lib : Lib) (k t b : String)
    (hb : b ≠ c.CachePrefix ++ setTagKey t) :
    (c.cacheTagKey lib k t).cache b = c.cache b := by
  unfold GfCache.cacheTagKey
  simp only
  split
  · split
    · simp [gcache.Set, hb]
    · split
      · rfl
      · simp [gcache.Set, hb]
    · simp [gcache.Set, hb]
  · rfl

theorem cacheTagKey_of_tagList (c : GfCache) (lib : Lib) (k : String) {t : String}
    {L : List Val} (ht : t ≠ "") (hL : tagList lib c t = some L) :
    (c.cacheTagKey lib k t).cache (tagKeyOf c t) = some (.slice (tagValue k L)) := by
  unfold GfCache.cacheTagKey
  simp only [prefix_setTagKey c ht, gcache.Get]
  rw [if_pos (tagKeyOf_ne_empty c t)]
  unfold tagList at hL
  split at hL
  · rename_i h
    cases hL
    simp [h, gcache.Set]
  · rename_i L2 h
    cases hL
    simp [h, gcache.Set, SliceAny]
  · rename_i s h
    split at hL
    · rename_i L2 h2
      cases hL
      simp [h, h2, gcache.Set, SliceAny]
    · cases hL
  · cases hL

theorem cacheTagKey_cache_mux (c : GfCache) (lib : Lib) (k t : String) (m : Bool) :
    (GfCache.cacheTagKey { c with tagSetMux := m } lib k t).cache
      = (c.cacheTagKey lib k t).cache := by
  obtain ⟨p, s, m0⟩ := c
  simp only [GfCache.cacheTagKey]
  split
  · split
    · rfl
    · split <;> rfl
    · rfl
  · rfl

theorem Set_spec (c : GfCache) (lib : Lib) (k : String) (v : Val) (d : Int)
    (tag : List String) (h : c.tagSetMux = false) :
    ∃ c2, c.Set lib k v d tag = some c2 ∧ c2.CachePrefix = c.CachePrefix ∧
      c2.tagSetMux = false ∧
      c2.cache (c.CachePrefix ++ k) = (if d < 0 then none else some v) ∧
      ∀ b, b ≠ c.CachePrefix ++ k →
        c2.cache b = match tag with
          | [] => c.cache b
          | t :: _ => (c.cacheTagKey lib k t).cache b := by
  unfold GfCache.Set GfCache.Lock
  rw [if_neg (by simp [h])]
  refine ⟨_, rfl, ?_⟩
  cases tag with
  | nil =>
    refine ⟨rfl, rfl, ?_, ?_⟩
    · simp [gcache.Set, GfCache.Unlock]
    · intro b hb
      simp [gcache.Set, GfCache.Unlock, hb]
  | cons t rest =>
    refine ⟨?_, ?_, ?_, ?_⟩
    · simp [GfCache.Unlock, cacheTagKey_CachePrefix]
    · simp [GfCache.Unlock]
    · simp [gcache.Set, GfCache.Unlock, cacheTagKey_CachePrefix]
    · intro b hb
      simp [gcache.Set, GfCache.Unlock, cacheTagKey_CachePrefix, hb, cacheTagKey_cache_mux]


theorem DeepEqual_iff (key : String) (v : Val) : DeepEqual key v = true ↔ v = .str key := by
  cases v <;> simp [DeepEqual]

theorem mem_tagValue (key : String) (L : List Val) (x : Val) :
    x ∈ tagValue key L ↔ x = .str key ∨ x ∈ L := by
  simp only [tagValue, List.mem_cons, List.mem_filter]
  constructor
  · rintro (h | ⟨h, _⟩)
    · exact Or.inl h
    · exact Or.inr h
  · rintro (h | h)
    · exact Or.inl h
    · by_cases hx : x = .str key
      · exact Or.inl hx
      · refine Or.inr ⟨h, ?_⟩
        have hne : DeepEqual key x ≠ true := fun hd => hx ((DeepEqual_iff key x).1 hd)
        simpa using hne

theorem countP_tagValue (key : String) (L : List Val) :
    (tagValue key L).countP (DeepEqual key) = 1 := by
  have h0 : (L.filter (fun v => !DeepEqual key v)).countP (DeepEqual key) = 0 := by
    rw [List.countP_eq_zero]
    intro a ha
    have := (List.mem_filter.1 ha).2
    simpa using this
  have hk : DeepEqual key (.str key) = true := (DeepEqual_iff key _).2 rfl
  simp [tagValue, List.countP_cons, h0, hk]

/-- The state after `Set` with a non-empty first tag whose tag key holds the list `L`,
for a key that is not itself the tag key: the tag key holds `tagValue key L`, and every
backend key other than the tag key and the entry key is untouched. -/
theorem Set_tagged (c : GfCache) (lib : Lib) (key : String) (value : Val) (ttl : Int)
    (t : String) (rest : List String) (L : List Val)
    (hmux : c.tagSetMux = false) (ht : t ≠ "") (hkey : key ≠ "tag_" ++ t)
    (hL : tagList lib c t = some L) :
    ∃ c2, c.Set lib key value ttl (t :: rest) = some c2 ∧
      c2.CachePrefix = c.CachePrefix ∧ c2.tagSetMux = false ∧
      c2.cache (c.CachePrefix ++ key) = (if ttl < 0 then none else some value) ∧
      c2.cache (tagKeyOf c t) = some (.slice (tagValue key L)) ∧
      ∀ b, b ≠ tagKeyOf c t → b ≠ c.CachePrefix ++ key → c2.cache b = c.cache b := by
  obtain ⟨c2, hset, hp, hm, hv, hframe⟩ := Set_spec c lib key value ttl (t :: rest) hmux
  refine ⟨c2, hset, hp, hm, hv, ?_, ?_⟩
  · rw [hframe _ (Ne.symm (key_ne_tagKeyOf c hkey))]
    exact cacheTagKey_of_tagList c lib key ht hL
  · intro b hb1 hb2
    rw [hframe b hb2]
    exact cacheTagKey_frame c lib key t b (by rw [prefix_setTagKey c ht]; exact hb1)

theorem hasMember_of_cache (lib : Lib) (c : GfCache) (t key : String) (xs : List Val)
    (h : c.cache (tagKeyOf c t) = some (.slice xs)) (hx : .str key ∈ xs) :
    hasMember lib c t key = true := by
  simp only [hasMember, tagList, h, List.any_eq_true]
  exact ⟨_, hx, (DeepEqual_iff key _).2 rfl⟩

theorem gcache.SetIfNotExist_of_some (s : Store) (key : String) (value v0 : Val) (d : Int)
    (h : s key = some v0) : gcache.SetIfNotExist s key value d = (false, s) := by
  simp [gcache.SetIfNotExist, h]

theorem RemoveByTag_slice (c : GfCache) (lib : Lib) (t : String) (xs : List Val)
    (hmux : c.tagSetMux = false)
    (h : c.cache (c.CachePrefix ++ setTagKey t) = some (.slice xs)) :
    ∃ c2, c.RemoveByTag lib t = some c2 ∧ c2.CachePrefix = c.CachePrefix ∧
      c2.tagSetMux = false ∧ c2.cache (c.CachePrefix ++ setTagKey t) = none ∧
      (∀ k, .str k ∈ xs → c2.cache (c.CachePrefix ++ k) = none) ∧
      (∀ b, c.cache b = none → c2.cache b = none) := by
  unfold GfCache.RemoveByTag GfCache.Lock
  rw [if_neg (by simp [hmux])]
  simp only [GfCache.Get, gcache.Get, h]
  refine ⟨_, rfl, rfl, rfl, ?_, ?_, ?_⟩
  · simp [GfCache.Remove, GfCache.Removes, gcache.Remove, GfCache.Unlock]
  · intro k hk
    simp only [GfCache.Remove, GfCache.Removes, gcache.Remove, GfCache.Unlock, SliceStr]
    have hmem : c.CachePrefix ++ k ∈
        (xs.map (gconvString lib)).map (fun v => c.CachePrefix ++ v) :=
      List.mem_map.2 ⟨k, List.mem_map.2 ⟨_, hk, rfl⟩, rfl⟩
    rw [if_pos hmem]
    split <;> rfl
  · intro b hb
    simp only [GfCache.Remove, GfCache.Removes, gcache.Remove, GfCache.Unlock]
    split
    · rfl
    · split
      · rfl
      · exact hb

theorem append_ne_of_not_prefix (p1 p2 : String) (h12 : ∀ x, p2 ≠ p1 ++ x)
    (h21 : ∀ x, p1 ≠ p2 ++ x) (x y : String) : p1 ++ x ≠ p2 ++ y := by
  intro h
  have hd := congrArg String.data h
  simp only [String.data_append] at hd
  rcases List.append_eq_append_iff.1 hd with ⟨a, ha, _⟩ | ⟨a, ha, _⟩
  · exact h12 ⟨a⟩ (String.ext (by simp [ha]))
  · exact h21 ⟨a⟩ (String.ext (by simp [ha]))

/-- With the empty namespace the empty tag is skipped by `cacheTagKey`. -/
theorem cacheTagKey_empty_tag_empty_namespace (c : GfCache) (lib : Lib) (k : String)
    (hp : c.CachePrefix = "") : c.cacheTagKey lib k "" = c := by
  simp [GfCache.cacheTagKey, setTagKey, hp]

/-- With a non-empty namespace on an entry-free backend key `CachePrefix`, the empty tag
makes `cacheTagKey` write the list of `k` under the backend key `CachePrefix`. -/
theorem cacheTagKey_empty_tag_namespace (c : GfCache) (lib : Lib) (k : String)
    (hp : c.CachePrefix ≠ "") (habs : c.cache c.CachePrefix = none) :
    (c.cacheTagKey lib k "").cache c.CachePrefix = some (.slice [.str k]) := by
  simp [GfCache.cacheTagKey, setTagKey, hp, gcache.Get, habs, gcache.Set, tagValue]

/-- The five tagging calls return with the mutex free when they start with it free. -/
theorem tagging_calls_release_mutex (c : GfCache) (lib : Lib) (k : String) (v : Val)
    (f : Func) (d : Int) (t : String) (tag : List String) (hmux : c.tagSetMux = false) :
    (∃ c2, c.Set lib k v d tag = some c2 ∧ c2.tagSetMux = false) ∧
    (∃ r, c.SetIfNotExist lib k v d t = some r ∧ r.2.tagSetMux = false) ∧
    (∃ r, c.GetOrSet lib k v d t = some r ∧ r.2.tagSetMux = false) ∧
    (∃ r, c.GetOrSetFunc lib k f d t = some r ∧ r.2.tagSetMux = false) ∧
    (∃ r, c.GetOrSetFuncLock lib k f d t = some r ∧ r.2.tagSetMux = false) := by
  refine ⟨?_, ?_, ?_, ?_, ?_⟩
  · obtain ⟨c2, h, _, hm, _⟩ := Set_spec c lib k v d tag hmux
    exact ⟨c2, h, hm⟩
  · unfold GfCache.SetIfNotExist GfCache.Lock
    rw [if_neg (by simp [hmux])]
    exact ⟨_, rfl, rfl⟩
  · unfold GfCache.GetOrSet GfCache.Lock
    rw [if_neg (by simp [hmux])]
    exact ⟨_, rfl, rfl⟩
  · unfold GfCache.GetOrSetFunc GfCache.Lock
    rw [if_neg (by simp [hmux])]
    exact ⟨_, rfl, rfl⟩
  · unfold GfCache.GetOrSetFuncLock GfCache.Lock
    rw [if_neg (by simp [hmux])]
    exact ⟨_, rfl, rfl⟩

/-- Started with the mutex free, `RemoveByTag` returns; it returns with the mutex held
exactly when the tag key holds a string that does not decode, and in every other case
the tag key is absent afterwards. -/
theorem RemoveByTag_mutex (c : GfCache) (lib : Lib) (t : String)
    (hmux : c.tagSetMux = false) :
    ∃ c2, c.RemoveByTag lib t = some c2 ∧ c2.CachePrefix = c.CachePrefix ∧
      (c2.tagSetMux = true ↔
        ∃ s, c.Get (setTagKey t) = some (.str s) ∧ lib.DecodeToJson s = none) ∧
      (c2.tagSetMux = false → c2.Get (setTagKey t) = none) := by
  unfold GfCache.RemoveByTag GfCache.Lock
  rw [if_neg (by simp [hmux])]
  simp only [GfCache.Get, gcache.Get]
  cases hget : c.cache (c.CachePrefix ++ setTagKey t) with
  | none =>
    refine ⟨_, rfl, rfl, ?_, ?_⟩
    · simp [GfCache.Unlock]
    · intro _
      simp [GfCache.Remove, gcache.Remove, GfCache.Unlock]
  | some val =>
    cases val with
    | str s =>
      dsimp only
      cases hdec : lib.DecodeToJson s with
      | none =>
        refine ⟨_, rfl, rfl, ?_, ?_⟩
        · simp [hdec]
        · intro h
          cases h
      | some js =>
        refine ⟨_, rfl, rfl, ?_, ?_⟩
        · simp [GfCache.Unlock, hdec]
        · intro _
          simp [GfCache.Remove, GfCache.Removes, gcache.Remove, GfCache.Unlock]
    | slice xs =>
      refine ⟨_, rfl, rfl, ?_, ?_⟩
      · simp [GfCache.Unlock]
      · intro _
        simp [GfCache.Remove, GfCache.Removes, gcache.Remove, GfCache.Unlock]
    | other n =>
      refine ⟨_, rfl, rfl, ?_, ?_⟩
      · simp [GfCache.Unlock]
      · intro _
        simp [GfCache.Remove, GfCache.Removes, gcache.Remove, GfCache.Unlock]

/-- When a call of `RemoveByTag` returns with the mutex free, a second call right after it
returns as well and leaves the state as it is. -/
theorem RemoveByTag_twice (c c2 : GfCache) (lib : Lib) (t : String)
    (hmux : c.tagSetMux = false) (h1 : c.RemoveByTag lib t = some c2)
    (h2 : c2.tagSetMux = false) : c2.RemoveByTag lib t = some c2 := by
  obtain ⟨c3, h3, _, _, habs⟩ := RemoveByTag_mutex c lib t hmux
  rw [h1] at h3
  cases h3
  have hnone := habs h2
  simp only [GfCache.Get, gcache.Get] at hnone
  unfold GfCache.RemoveByTag GfCache.Lock
  rw [if_neg (by simp [h2])]
  simp only [GfCache.Get, gcache.Get, hnone]
  obtain ⟨p, s, m⟩ := c2
  simp only [GfCache.Remove, gcache.Remove, GfCache.Unlock] at *
  subst h2
  congr 2
  funext b
  by_cases hb : b = p ++ setTagKey t
  · simp [hb, hnone]
  · simp [hb]

/-- The concrete decoder on an array of two strings, and on two texts it rejects. -/
theorem decodeStrings_examples :
    decodeStrings "[\"a\",\"b\"]" = some (.slice [.str "a", .str "b"]) ∧
      decodeStrings "[]" = some (.slice []) ∧
      decodeStrings "\x7b" = none ∧ decodeStrings "[\"a\",]" = none :=
  ⟨rfl, rfl, rfl, rfl⟩

/-- The string branch of `cacheTagKey` at a concrete input: the tag key of `"x"` holds
the text of the list of `"a"` and `"b"`; tagging `"b"` stores the native list of `"b"` and
`"a"`, and `RemoveByTag("x")` then removes both entries and the tag key. -/
theorem Set_over_encoded_list :
    ∃ c1 c2 c3, (New "p").Set stringArrays "tag_x" (.str "[\"a\",\"b\"]") 0 [] = some c1 ∧
      c1.Set stringArrays "b" (.other 1) 0 ["x"] = some c2 ∧
      c2.cache "ptag_x" = some (.slice [.str "b", .str "a"]) ∧
      c2.RemoveByTag stringArrays "x" = some c3 ∧
      c3.Get "b" = none ∧ c3.cache "ptag_x" = none ∧ c3.tagSetMux = false :=
  ⟨_, _, _, rfl, rfl, rfl, rfl, rfl, rfl, rfl⟩

/-- A `Set` with a negative duration returns and leaves the key absent: the entry it
writes is expired from the start. -/
theorem Set_negative_duration (c : GfCache) (lib : Lib) (k : String) (v : Val) (d : Int)
    (tag : List String) (hmux : c.tagSetMux = false) (hd : d < 0) :
    ∃ c2, c.Set lib k v d tag = some c2 ∧ c2.Get k = none := by
  obtain ⟨c2, hset, hp, _, hv, _⟩ := Set_spec c lib k v d tag hmux
  exact ⟨c2, hset, by simpa [GfCache.Get, gcache.Get, hp, hd] using hv⟩

/-! ## The claims -/

/-- C5: on a façade whose mutex is free, for every backend content, key `k`, value `v`
and any list of tag arguments, `Set(k, v, 0, tag...)` returns (with a nil error) and the
next `Get(k)` returns `v`. -/
theorem Get_after_Set (c : GfCache) (lib : Lib) (k : String) (v : Val) (tag : List String)
    (hmux : c.tagSetMux = false) :
    ∃ c2, c.Set lib k v 0 tag = some c2 ∧ c2.Get k = some v := by
  obtain ⟨c2, hset, hp, _, hv, _⟩ := Set_spec c lib k v 0 tag hmux
  exact ⟨c2, hset, by simpa [GfCache.Get, gcache.Get, hp] using hv⟩

/-- Witness of C5: a tagged `Set` over a tag key that holds an undecodable string. -/
theorem Get_after_Set_witness :
    ∃ c1 c2, (New "prefix").Set stringArrays "tag_x" (.str "\x7b") 0 [] = some c1 ∧
      c1.Set stringArrays "person" (.other 7) 0 ["x"] = some c2 ∧
      c2.Get "person" = some (.other 7) := by
  obtain ⟨c2, h2, hg⟩ :=
    Get_after_Set
      { CachePrefix := "prefix"
        cache := gcache.Set (fun _ => none) ("prefix" ++ "tag_x") (.str "\x7b") 0
        tagSetMux := false }
      stringArrays "person" (.other 7) ["x"] rfl
  exact ⟨_, c2, rfl, h2, hg⟩

/-- C3 (amended): for a non-empty tag `t` whose tag key is absent (`L` empty) or holds a
list `L`, and a key `k` other than `"tag_" + t`, `Set(k, v, ttl, t)` returns and leaves
under the tag key of `t` a list that contains `k` exactly once, contains every element of
`L`, and contains nothing outside `L` and `k`. -/
theorem Set_tag_list (c : GfCache) (lib : Lib) (k : String) (v : Val) (ttl : Int)
    (t : String) (L : List Val)
    (hmux : c.tagSetMux = false) (ht : t ≠ "") (hk : k ≠ "tag_" ++ t)
    (hL : tagList lib c t = some L) :
    ∃ c2 xs, c.Set lib k v ttl [t] = some c2 ∧
      c2.cache (tagKeyOf c t) = some (.slice xs) ∧
      .str k ∈ xs ∧ xs.countP (DeepEqual k) = 1 ∧
      (∀ x ∈ L, x ∈ xs) ∧ (∀ x ∈ xs, x = .str k ∨ x ∈ L) := by
  obtain ⟨c2, hset, _, _, _, htag, _⟩ := Set_tagged c lib k v ttl t [] L hmux ht hk hL
  refine ⟨c2, tagValue k L, hset, htag, ?_, countP_tagValue k L, ?_, ?_⟩
  · exact (mem_tagValue k L _).2 (Or.inl rfl)
  · intro x hx
    exact (mem_tagValue k L x).2 (Or.inr hx)
  · intro x hx
    exact (mem_tagValue k L x).1 hx

/-- Witness of C3 (amended): tagging `"b"` under a tag that already lists `"a"`. -/
theorem Set_tag_list_witness :
    ∃ c2 xs,
      GfCache.Set
          { CachePrefix := "p"
            cache := gcache.Set (fun _ => none) "ptag_x" (.slice [.str "a"]) 0
            tagSetMux := false }
          stringArrays "b" (.other 1) 0 ["x"] = some c2 ∧
      c2.cache "ptag_x" = some (.slice xs) ∧
      .str "b" ∈ xs ∧ xs.countP (DeepEqual "b") = 1 ∧
      (∀ x ∈ [Val.str "a"], x ∈ xs) ∧ (∀ x ∈ xs, x = .str "b" ∨ x ∈ [Val.str "a"]) :=
  Set_tag_list
    { CachePrefix := "p"
      cache := gcache.Set (fun _ => none) "ptag_x" (.slice [.str "a"]) 0
      tagSetMux := false }
    stringArrays "b" (.other 1) 0 "x" [.str "a"] rfl (by decide) (by decide) rfl

/-- Counterexample to C3 as stated: for the key `"tag_x"` and the tag `"x"` the entry
write lands on the tag key, which then holds the value and not a list. -/
theorem Set_tag_list_counterexample :
    tagList stringArrays (New "p") "x" = some [] ∧
    ∃ c2, (New "p").Set stringArrays "tag_x" (.other 0) 0 ["x"] = some c2 ∧
      c2.cache (tagKeyOf (New "p") "x") = some (.other 0) ∧
      ¬ ∃ xs, c2.cache (tagKeyOf (New "p") "x") = some (.slice xs) := by
  refine ⟨rfl, _, rfl, rfl, ?_⟩
  rintro ⟨xs, h⟩
  have h0 : ((New "p").Set stringArrays "tag_x" (.other 0) 0 ["x"]).bind
      (fun c2 => c2.cache (tagKeyOf (New "p") "x")) = some (.other 0) := rfl
  cases h0.symm.trans h

/-- C2 (amended): a call `Set(key, value, ttl, t1, ..., tn)` with `t1` non-empty and
`key` other than `"tag_" + t1`, made where the tag key of `t1` is absent or holds a
decodable list, updates the index of the first supplied tag only: afterwards the
membership set of `t1` contains `key`, and every backend key other than the tag key of
`t1` and the entry key (so the tag keys of `t2 .. tn`) keeps its value. -/
theorem Set_indexes_first_tag (c : GfCache) (lib : Lib) (key : String) (value : Val)
    (ttl : Int) (t1 : String) (rest : List String) (L : List Val)
    (hmux : c.tagSetMux = false) (ht1 : t1 ≠ "") (hkey : key ≠ "tag_" ++ t1)
    (hL : tagList lib c t1 = some L) :
    ∃ c2, c.Set lib key value ttl (t1 :: rest) = some c2 ∧
      hasMember lib c2 t1 key = true ∧
      ∀ b, b ≠ tagKeyOf c t1 → b ≠ c.CachePrefix ++ key → c2.cache b = c.cache b := by
  obtain ⟨c2, hset, hp, _, _, htag, hframe⟩ :=
    Set_tagged c lib key value ttl t1 rest L hmux ht1 hkey hL
  refine ⟨c2, hset, ?_, hframe⟩
  have hkeyOf : tagKeyOf c2 t1 = tagKeyOf c t1 := by simp [tagKeyOf, hp]
  exact hasMember_of_cache lib c2 t1 key (tagValue key L) (by rw [hkeyOf]; exact htag)
    ((mem_tagValue key L _).2 (Or.inl rfl))

/-- Witness of C2 (amended): two tags on a fresh façade. -/
theorem Set_indexes_first_tag_witness :
    ∃ c2, (New "p").Set stringArrays "k" (.other 0) 0 ["a", "b"] = some c2 ∧
      hasMember stringArrays c2 "a" "k" = true ∧
      ∀ b, b ≠ tagKeyOf (New "p") "a" → b ≠ (New "p").CachePrefix ++ "k" →
        c2.cache b = (New "p").cache b :=
  Set_indexes_first_tag (New "p") stringArrays "k" (.other 0) 0 "a" ["b"] [] rfl
    (by decide) (by decide) rfl

/-- Counterexample to C2 as stated: with the tags `"a"`, `"b"` only `"a"` is indexed, the
tag key of `"b"` stays absent; and for the key `"tag_a"` tagged `"a"` the entry write
replaces the membership set, which then does not contain the key. -/
theorem Set_indexes_first_tag_counterexample :
    (∃ c2, (New "p").Set stringArrays "k" (.other 0) 0 ["a", "b"] = some c2 ∧
      hasMember stringArrays c2 "a" "k" = true ∧
      c2.cache (tagKeyOf c2 "b") = none ∧
      hasMember stringArrays c2 "b" "k" = false) ∧
    (tagList stringArrays (New "p") "a" = some [] ∧
      ∃ c2, (New "p").Set stringArrays "tag_a" (.other 0) 0 ["a"] = some c2 ∧
        c2.cache (tagKeyOf c2 "a") = some (.other 0) ∧
        hasMember stringArrays c2 "a" "tag_a" = false) :=
  ⟨⟨_, rfl, rfl, rfl, rfl⟩, rfl, _, rfl, rfl, rfl⟩

/-- C7 (amended): where key `k` already holds `v0`, for a non-empty tag `t` whose tag key
is absent or holds a decodable list, and `k` other than `"tag_" + t`,
`SetIfNotExist(k, v, ttl, t)` returns false, leaves `Get(k)` equal to `v0`, and afterwards
the membership set of `t` contains `k`. -/
theorem SetIfNotExist_tags_existing_key (c : GfCache) (lib : Lib) (k : String)
    (v0 v : Val) (ttl : Int) (t : String) (L : List Val)
    (hmux : c.tagSetMux = false) (hk0 : c.Get k = some v0) (ht : t ≠ "")
    (hk : k ≠ "tag_" ++ t) (hL : tagList lib c t = some L) :
    ∃ c2, c.SetIfNotExist lib k v ttl t = some (false, c2) ∧
      c2.Get k = some v0 ∧ hasMember lib c2 t k = true := by
  have hpre := cacheTagKey_CachePrefix { c with tagSetMux := true } lib k t
  have hcache := cacheTagKey_cache_mux c lib k t true
  have hent : (c.cacheTagKey lib k t).cache (c.CachePrefix ++ k) = some v0 := by
    rw [cacheTagKey_frame c lib k t _ (by rw [prefix_setTagKey c ht]; exact key_ne_tagKeyOf c hk)]
    exact hk0
  have htag := cacheTagKey_of_tagList c lib k ht hL
  unfold GfCache.SetIfNotExist GfCache.Lock
  rw [if_neg (by simp [hmux])]
  simp only [hpre, hcache]
  rw [gcache.SetIfNotExist_of_some _ _ _ v0 _ hent]
  refine ⟨_, rfl, ?_, ?_⟩
  · simpa [GfCache.Get, gcache.Get, GfCache.Unlock, hpre] using hent
  · refine hasMember_of_cache lib _ t k (tagValue k L) ?_ ((mem_tagValue k L _).2 (Or.inl rfl))
    simpa [tagKeyOf, GfCache.Unlock, hpre] using htag

/-- Witness of C7 (amended): the key `"k"` holds a value and the tag `"x"` is new. -/
theorem SetIfNotExist_tags_existing_key_witness :
    ∃ c2,
      GfCache.SetIfNotExist
          { CachePrefix := "p"
            cache := gcache.Set (fun _ => none) "pk" (.other 1) 0
            tagSetMux := false }
          stringArrays "k" (.other 2) 0 "x" = some (false, c2) ∧
      c2.Get "k" = some (.other 1) ∧ hasMember stringArrays c2 "x" "k" = true :=
  SetIfNotExist_tags_existing_key
    { CachePrefix := "p"
      cache := gcache.Set (fun _ => none) "pk" (.other 1) 0
      tagSetMux := false }
    stringArrays "k" (.other 1) (.other 2) 0 "x" [] rfl rfl (by decide) (by decide) rfl

/-- Counterexample to C7 as stated: the key `"tag_x"` holds the empty list, which is also
the decodable list under the tag key of `"x"`; `SetIfNotExist("tag_x", v, 0, "x")` returns
false and `Get("tag_x")` has changed from the empty list to the list of `"tag_x"`. -/
theorem SetIfNotExist_tags_existing_key_counterexample :
    ∃ c c2, (New "p").Set stringArrays "tag_x" (.slice []) 0 [] = some c ∧
      c.Get "tag_x" = some (.slice []) ∧
      tagList stringArrays c "x" = some [] ∧
      c.SetIfNotExist stringArrays "tag_x" (.other 1) 0 "x" = some (false, c2) ∧
      c2.Get "tag_x" = some (.slice [.str "tag_x"]) ∧
      c2.Get "tag_x" ≠ c.Get "tag_x" := by
  refine ⟨_, _, rfl, rfl, rfl, rfl, rfl, ?_⟩
  intro h
  have h1 : some (Val.slice [.str "tag_x"]) = some (Val.slice []) := h
  simp at h1

/-- C1 (amended): for every namespace, every non-empty tag `t`, all keys `k1`, `k2` other
than `"tag_" + t` and all values, starting from an empty in-memory store: `Set(k1, v1, 0,
t)`, `Set(k2, v2, 0, t)` and `RemoveByTag(t)` all return, after which `Get(k1)` and
`Get(k2)` are absent and the tag key of `t` is absent as well. -/
theorem RemoveByTag_after_Sets (lib : Lib) (p t k1 k2 : String) (v1 v2 : Val)
    (ht : t ≠ "") (hk1 : k1 ≠ "tag_" ++ t) (hk2 : k2 ≠ "tag_" ++ t) :
    ∃ c1 c2 c3, (New p).Set lib k1 v1 0 [t] = some c1 ∧
      c1.Set lib k2 v2 0 [t] = some c2 ∧ c2.RemoveByTag lib t = some c3 ∧
      c3.Get k1 = none ∧ c3.Get k2 = none ∧ c3.cache (p ++ "tag_" ++ t) = none := by
  obtain ⟨c1, hs1, hp1, hm1, _, ht1, _⟩ :=
    Set_tagged (New p) lib k1 v1 0 t [] [] rfl ht hk1 rfl
  have hp1 : c1.CachePrefix = p := hp1
  have hL1 : tagList lib c1 t = some (tagValue k1 []) := by
    have hkey : tagKeyOf c1 t = tagKeyOf (New p) t := by simp [tagKeyOf, hp1, New]
    simp only [tagList, hkey, ht1]
  obtain ⟨c2, hs2, hp2, hm2, _, ht2, _⟩ :=
    Set_tagged c1 lib k2 v2 0 t [] (tagValue k1 []) hm1 ht hk2 hL1
  have hp2 : c2.CachePrefix = p := hp2.trans hp1
  have hkey2 : c2.CachePrefix ++ setTagKey t = tagKeyOf c1 t := by
    rw [prefix_setTagKey c2 ht]
    simp [tagKeyOf, hp1, hp2]
  obtain ⟨c3, hs3, hp3, _, htag3, hmem3, _⟩ :=
    RemoveByTag_slice c2 lib t (tagValue k2 (tagValue k1 [])) hm2 (by rw [hkey2]; exact ht2)
  have hp3 : c3.CachePrefix = p := hp3.trans hp2
  refine ⟨c1, c2, c3, hs1, hs2, hs3, ?_, ?_, ?_⟩
  · have := hmem3 k1 ((mem_tagValue k2 _ _).2 (Or.inr ((mem_tagValue k1 _ _).2 (Or.inl rfl))))
    simpa [GfCache.Get, gcache.Get, hp3, hp2] using this
  · have := hmem3 k2 ((mem_tagValue k2 _ _).2 (Or.inl rfl))
    simpa [GfCache.Get, gcache.Get, hp3, hp2] using this
  · rw [hkey2] at htag3
    simpa [tagKeyOf, hp1] using htag3

/-- Witness of C1 (amended): the scenario of `testMemoryWithTag`. -/
theorem RemoveByTag_after_Sets_witness :
    ∃ c1 c2 c3, (New "prefix").Set stringArrays "person01" (.other 1) 0 ["tag_person"] = some c1 ∧
      c1.Set stringArrays "person02" (.other 2) 0 ["tag_person"] = some c2 ∧
      c2.RemoveByTag stringArrays "tag_person" = some c3 ∧
      c3.Get "person01" = none ∧ c3.Get "person02" = none ∧
      c3.cache ("prefix" ++ "tag_" ++ "tag_person") = none :=
  RemoveByTag_after_Sets stringArrays "prefix" "tag_person" "person01" "person02"
    (.other 1) (.other 2) (by decide) (by decide) (by decide)

/-- Counterexample to C1 as stated: with the second key `"tag_t"` the entry write
replaces the membership set of `"t"` by the value (here an empty list), so `RemoveByTag`
leaves `"a"` in place; and with the empty namespace and the empty tag nothing is indexed
and `RemoveByTag("")` removes nothing. -/
theorem RemoveByTag_after_Sets_counterexample :
    (∃ c1 c2 c3, (New "p").Set stringArrays "a" (.other 1) 0 ["t"] = some c1 ∧
      c1.Set stringArrays "tag_t" (.slice []) 0 ["t"] = some c2 ∧
      c2.RemoveByTag stringArrays "t" = some c3 ∧
      c3.Get "a" = some (.other 1)) ∧
    (∃ c1 c2 c3, (New "").Set stringArrays "a" (.other 1) 0 [""] = some c1 ∧
      c1.Set stringArrays "b" (.other 2) 0 [""] = some c2 ∧
      c2.RemoveByTag stringArrays "" = some c3 ∧
      c3.Get "a" = some (.other 1) ∧ c3.Get "b" = some (.other 2)) :=
  ⟨⟨_, _, _, rfl, rfl, rfl, rfl⟩, ⟨_, _, _, rfl, rfl, rfl, rfl, rfl⟩⟩

/-- C6 (amended): for every namespace, store, key `k` and tag `t` with `k` other than
`"tag_" + t`, the value under the tag key of `t` is the same before and after
`Remove(k)`; `Remove(k)` returns the prior value of `k` (none when absent), leaves `k`
absent and changes no other backend key. -/
theorem Remove_keeps_tag_list (c : GfCache) (k t : String) (hk : k ≠ "tag_" ++ t) :
    (c.Remove k).2.cache (tagKeyOf c t) = c.cache (tagKeyOf c t) ∧
      (c.Remove k).1 = c.Get k ∧ (c.Remove k).2.Get k = none ∧
      ∀ b, b ≠ c.CachePrefix ++ k → (c.Remove k).2.cache b = c.cache b := by
  have hframe : ∀ b, b ≠ c.CachePrefix ++ k → (c.Remove k).2.cache b = c.cache b := by
    intro b hb
    simp [GfCache.Remove, gcache.Remove, hb]
  refine ⟨hframe _ (Ne.symm (key_ne_tagKeyOf c hk)), ?_, ?_, hframe⟩
  · simp only [GfCache.Remove, gcache.Remove, gcache.lastValue, GfCache.Get, gcache.Get]
    cases c.cache (c.CachePrefix ++ k) <;> rfl
  · simp [GfCache.Remove, gcache.Remove, GfCache.Get, gcache.Get]

/-- Witness of C6 (amended): after `Set("a", 1, 0, "x")` and `Set("b", 2, 0, "x")` the
tag key of `"x"` holds the list of `"b"` and `"a"` and `"a"` holds 1; `Remove("a")` returns
1, leaves `"a"` absent, and the list of `"x"` is still the list of `"b"` and `"a"`. -/
theorem Remove_keeps_tag_list_witness :
    ∃ c1 c, (New "p").Set stringArrays "a" (.other 1) 0 ["x"] = some c1 ∧
      c1.Set stringArrays "b" (.other 2) 0 ["x"] = some c ∧
      c.cache (tagKeyOf c "x") = some (.slice [.str "b", .str "a"]) ∧
      c.Get "a" = some (.other 1) ∧
      (c.Remove "a").1 = some (.other 1) ∧
      (c.Remove "a").2.cache (tagKeyOf c "x") = some (.slice [.str "b", .str "a"]) ∧
      hasMember stringArrays (c.Remove "a").2 "x" "a" = true ∧
      ((c.Remove "a").2.cache (tagKeyOf c "x") = c.cache (tagKeyOf c "x") ∧
        (c.Remove "a").1 = c.Get "a" ∧ (c.Remove "a").2.Get "a" = none ∧
        ∀ b, b ≠ c.CachePrefix ++ "a" → (c.Remove "a").2.cache b = c.cache b) := by
  refine ⟨_, _, rfl, rfl, rfl, rfl, rfl, rfl, rfl, ?_⟩
  exact Remove_keeps_tag_list _ "a" "x" (by decide)

/-- Counterexample to C6 as stated: after `Set("a", v, 0, "x")` the tag key of `"x"`
holds the list of `"a"`; `Remove("tag_x")` deletes that tag key. -/
theorem Remove_keeps_tag_list_counterexample :
    ∃ c, (New "p").Set stringArrays "a" (.other 1) 0 ["x"] = some c ∧
      c.cache (tagKeyOf c "x") = some (.slice [.str "a"]) ∧
      (c.Remove "tag_x").2.cache (tagKeyOf c "x") = none ∧
      hasMember stringArrays c "x" "a" = true ∧
      hasMember stringArrays (c.Remove "tag_x").2 "x" "a" = false :=
  ⟨_, rfl, rfl, rfl, rfl, rfl⟩

/-- C8 (amended): when neither of two namespaces is an initial segment of the other (as
for `"a_"` and `"b_"`), the backend key `p1 + k1` differs from `p2 + k2` for all keys,
and a `Set(k1, ...)` through the first façade, with any tags, returns and does not change
what `Get(k2)` returns through the second façade over the same backend. -/
theorem Set_isolated_across_namespaces (lib : Lib) (p1 p2 : String) (s : Store)
    (k1 k2 : String) (v : Val) (d : Int) (tag : List String)
    (h12 : ∀ x, p2 ≠ p1 ++ x) (h21 : ∀ x, p1 ≠ p2 ++ x) :
    p1 ++ k1 ≠ p2 ++ k2 ∧
      ∃ c1, GfCache.Set ⟨p1, s, false⟩ lib k1 v d tag = some c1 ∧
        (GfCache.withStore ⟨p2, s, false⟩ c1.cache).Get k2 = GfCache.Get ⟨p2, s, false⟩ k2 := by
  have hne := append_ne_of_not_prefix p1 p2 h12 h21
  refine ⟨hne k1 k2, ?_⟩
  obtain ⟨c1, hset, _, _, _, hframe⟩ := Set_spec ⟨p1, s, false⟩ lib k1 v d tag rfl
  refine ⟨c1, hset, ?_⟩
  have hb := hframe (p2 ++ k2) (Ne.symm (hne k1 k2))
  simp only [GfCache.withStore, GfCache.Get, gcache.Get]
  rw [hb]
  cases tag with
  | nil => rfl
  | cons t rest =>
    exact cacheTagKey_frame ⟨p1, s, false⟩ lib k1 t _ (Ne.symm (hne (setTagKey t) k2))

/-- Witness of C8 (amended): the namespaces `"a_"` and `"b_"` and the key `"x"`. -/
theorem Set_isolated_across_namespaces_witness :
    "a_" ++ "x" ≠ "b_" ++ "x" ∧
      ∃ c1, GfCache.Set ⟨"a_", fun _ => none, false⟩ stringArrays "x" (.other 1) 0 [] = some c1 ∧
        (GfCache.withStore ⟨"b_", fun _ => none, false⟩ c1.cache).Get "x"
          = GfCache.Get ⟨"b_", fun _ => none, false⟩ "x" :=
  Set_isolated_across_namespaces stringArrays "a_" "b_" (fun _ => none) "x" "x" (.other 1) 0 []
    (fun x h => by
      have hd := congrArg String.data h
      simp at hd)
    (fun x h => by
      have hd := congrArg String.data h
      simp at hd)

/-- Counterexample to C8 as stated: the namespaces `"a"` and `"ab"` differ, yet
`"a" + "bc"` and `"ab" + "c"` are the same backend key, and `Set("bc", v)` through the
first façade changes what `Get("c")` returns through the second. -/
theorem Set_isolated_across_namespaces_counterexample :
    "a" ≠ "ab" ∧ "a" ++ "bc" = "ab" ++ "c" ∧
      ∃ c1, (New "a").Set stringArrays "bc" (.other 1) 0 [] = some c1 ∧
        (New "ab").Get "c" = none ∧
        ((New "ab").withStore c1.cache).Get "c" = some (.other 1) :=
  ⟨by decide, by decide, _, rfl, rfl, rfl⟩

/-- C4 (the code at a failing input): on a façade with the namespace `"prefix"`,
`SetIfNotExist("person", v, 0, "")` and `Set("person", v, 0, "")` write a membership set
under the backend key `"prefix"`, which is not the entry key `"prefix" + "person"` and was
absent before; `cacheTagKey` tests `CachePrefix + setTagKey(tag)` against the empty string,
not `setTagKey(tag)`. -/
theorem empty_tag_writes_namespace_key :
    (New "prefix").cache "prefix" = none ∧ "prefix" ≠ "prefix" ++ "person" ∧
    (∃ c2, (New "prefix").SetIfNotExist stringArrays "person" (.other 1) 0 "" = some (true, c2) ∧
      c2.cache "prefix" = some (.slice [.str "person"])) ∧
    (∃ c2, (New "prefix").Set stringArrays "person" (.other 1) 0 [""] = some c2 ∧
      c2.cache "prefix" = some (.slice [.str "person"])) :=
  ⟨rfl, by decide, ⟨_, rfl, rfl⟩, ⟨_, rfl, rfl⟩⟩

/-- C9 (the code at a failing input): after `Set("tag_x", "{", 0)` the tag key of `"x"`
holds a string that does not decode; the first `RemoveByTag("x")` returns, the second one
never does. -/
theorem RemoveByTag_second_call_blocks :
    ∃ c1, (New "prefix").Set stringArrays "tag_x" (.str "\x7b") 0 [] = some c1 ∧
      stringArrays.DecodeToJson "\x7b" = none ∧
      (c1.RemoveByTag stringArrays "x").isSome = true ∧
      (c1.RemoveByTag stringArrays "x").bind (fun c2 => c2.RemoveByTag stringArrays "x") = none :=
  ⟨_, rfl, rfl, rfl, rfl⟩

/-- C10 (the code at a failing input): after `Set("tag_x", "{", 0)` the mutex is free;
`RemoveByTag("x")` hits the decode error and returns with the mutex held, so that a later
`RemoveByTag` or `Set` on the façade never returns, and neither does
`RemoveByTags(["x", "y"])`. -/
theorem RemoveByTag_decode_error_keeps_mutex :
    ∃ c1 c2, (New "prefix").Set stringArrays "tag_x" (.str "\x7b") 0 [] = some c1 ∧
      c1.tagSetMux = false ∧
      c1.RemoveByTag stringArrays "x" = some c2 ∧ c2.tagSetMux = true ∧
      c2.RemoveByTag stringArrays "x" = none ∧
      c2.Set stringArrays "k" (.other 1) 0 [] = none ∧
      c1.RemoveByTags stringArrays ["x", "y"] = none :=
  ⟨_, _, rfl, rfl, rfl, rfl, rfl, rfl, rfl⟩

end GhogCache
